import Mathlib

/-!
# sftp-backup-sync: classification and aggregation of remote backups

A shallow embedding of `main.go`.  The program lists the entries of the remote
root directory, walks every entry with the SFTP walker, collects the
non-directory nodes of each walk into a `Backup`, and prints one line per backup
with the number of files, the mutable and immutable byte totals and the latest
modification time.

Modelling conventions

* A Go `string` is embedded as a Lean `String`; the functions of package
  `strings` work on its list of characters.
* `int64` values are integers kept in the range `[-2^63, 2^63)` by `wrap64`,
  which is applied after every addition, as Go's wrap-around arithmetic does.
* `len` of a slice is a natural number.
* A `time.Time` is represented by its instant.
* The SFTP connection is a record of the answers the server gives: the listing
  of `/` and, for every path, the sequence of steps the walker yields.
-/

namespace SftpBackupSync

/-! ## Package `strings` -/

namespace strings

/-- Go: `len(s) >= len(prefix) && s[:len(prefix)] == prefix`. -/
def HasPrefix (s pre : String) : Bool :=
  decide (pre.data.length ≤ s.data.length) && (s.data.take pre.data.length == pre.data)

/-- Go: `len(s) >= len(suffix) && s[len(s)-len(suffix):] == suffix`. -/
def HasSuffix (s suffix : String) : Bool :=
  decide (suffix.data.length ≤ s.data.length) &&
    (s.data.drop (s.data.length - suffix.data.length) == suffix.data)

/-- Leftmost-match search behind `strings.Index`: the position of the first
occurrence of `sub` in the rest `s` of the string, where `i` characters have
been passed already, or `-1`. -/
def indexFrom (sub : List Char) : List Char → Nat → Int
  | [], i => if sub = [] then (i : Int) else -1
  | c :: t, i =>
    if (c :: t).take sub.length = sub then (i : Int) else indexFrom sub t (i + 1)

/-- Go: `Index` returns the index of the first instance of `substr` in `s`, or
`-1` if `substr` is not present in `s`. -/
def Index (s substr : String) : Int :=
  indexFrom substr.data s.data 0

/-- Go: `return Index(s, substr) >= 0`. -/
def Contains (s substr : String) : Bool :=
  decide (Index s substr ≥ 0)

/-- Go: `if HasPrefix(s, prefix) { return s[len(prefix):] }; return s`. -/
def TrimPrefix (s pre : String) : String :=
  if HasPrefix s pre then String.mk (s.data.drop pre.data.length) else s

end strings

/-! ## Data model -/

/-- Go: `type File struct { Path string; Size int64 }`. -/
structure File where
  Path : String
  Size : Int
deriving DecidableEq

/-- Go: `func (f *File) IsImmutable() bool`. -/
def File.IsImmutable (f : File) : Bool :=
  if strings.Contains f.Path "/objects/" then
    true
  else if strings.HasSuffix f.Path ".pack" || strings.HasSuffix f.Path ".index" then
    true
  else
    false

/-- Conversion to `int64`, and the result of an `int64` addition: the
representative of `x` modulo `2^64` in `[-2^63, 2^63)`. -/
def int64 (x : Int) : Int :=
  (x + 2 ^ 63) % 2 ^ 64 - 2 ^ 63

/-- Instant of a `time.Time`: seconds since January 1, year 1, 00:00:00 UTC, and
nanoseconds within the second. -/
structure Time where
  sec : Int
  nsec : Nat
deriving DecidableEq

/-- The zero value of `time.Time`. -/
def Time.zero : Time := { sec := 0, nsec := 0 }

/-- Go: `unixToInternal`, the seconds from year 1 to the Unix epoch. -/
def unixToInternal : Int := 62135596800

/-- Go: `time.Unix(sec, 0)`. -/
def Time.Unix (sec : Int) : Time := { sec := sec + unixToInternal, nsec := 0 }

/-- Go: `ts > us || ts == us && t.nsec() > u.nsec()`. -/
def Time.After (t u : Time) : Bool :=
  decide (t.sec > u.sec) || (decide (t.sec = u.sec) && decide (t.nsec > u.nsec))

/-- Go: `func max(a time.Time, b time.Time) time.Time`. -/
def max (a b : Time) : Time :=
  if a.After b then a else b

/-- An `os.FileInfo` as the SFTP client builds it from the attributes sent by
the server: `Size` is the `uint64` size attribute, `Mtime` the `uint32`
modification time in seconds since the Unix epoch, `Dir` the directory bit of
the mode. -/
structure FileInfo where
  name : String
  size : Nat
  mtime : Nat
  dir : Bool
deriving DecidableEq

/-- Go: `info.Name()`. -/
def FileInfo.Name (info : FileInfo) : String := info.name

/-- Go: `info.Size()`, that is `int64(fi.stat.Size)`. -/
def FileInfo.Size (info : FileInfo) : Int := int64 info.size

/-- Go: `info.ModTime()`, that is `time.Unix(int64(fi.stat.Mtime), 0)`. -/
def FileInfo.ModTime (info : FileInfo) : Time := Time.Unix info.mtime

/-- Go: `info.IsDir()`. -/
def FileInfo.IsDir (info : FileInfo) : Bool := info.dir

/-- One iteration of `for w.Step()`: what `w.Err()`, `w.Path()` and `w.Stat()`
answer after the step (`err` is `w.Err() != nil`). -/
structure WalkStep where
  err : Bool
  path : String
  stat : FileInfo
deriving DecidableEq

/-- Go: `type Backup struct`. -/
structure Backup where
  Name : String
  Files : List File
  TotalSize : Int
  LastModified : Time
deriving DecidableEq

/-- Go: `backup := &Backup{Name: name, Files: []*File{}, TotalSize: 0}`; the
field `LastModified` gets its zero value. -/
def newBackup (name : String) : Backup :=
  { Name := name, Files := [], TotalSize := 0, LastModified := Time.zero }

/-- Body of the loop `for w.Step() { ... }` of `main`. -/
def walkBody (backup : Backup) (w : WalkStep) : Backup :=
  if w.err then
    backup
  else
    let info := w.stat
    let path := w.path
    let modTime := info.ModTime
    if info.IsDir then
      backup
    else
      let file : File := { Path := path, Size := info.Size }
      { backup with
        Files := backup.Files ++ [file]
        TotalSize := int64 (backup.TotalSize + info.Size)
        LastModified := max backup.LastModified modTime }

/-- The loop `for w.Step() { ... }` run over the steps the walker yields. -/
def walkLoop (backup : Backup) (steps : List WalkStep) : Backup :=
  steps.foldl walkBody backup

/-- The two counters of the report loop. -/
structure Sizes where
  immutableSize : Int
  mutableSize : Int
deriving DecidableEq

/-- Body of `for _, f := range b.Files { ... }`. -/
def sizeBody (acc : Sizes) (f : File) : Sizes :=
  if f.IsImmutable then
    { acc with immutableSize := int64 (acc.immutableSize + f.Size) }
  else
    { acc with mutableSize := int64 (acc.mutableSize + f.Size) }

/-- The loop `for _, f := range b.Files { ... }`, started with both counters
at `int64(0)`. -/
def sizeLoop (files : List File) : Sizes :=
  files.foldl sizeBody { immutableSize := 0, mutableSize := 0 }

/-- Go: `fmt.Printf("%s (%d files), %d bytes (mutable), %d bytes (immutable),
last modified %+v\n", ...)`.  The rendering of a `time.Time` is the parameter
`timeString`. -/
def printLine (timeString : Time → String) (b : Backup) : String :=
  b.Name ++ " (" ++ toString b.Files.length ++ " files), " ++
    toString (sizeLoop b.Files).mutableSize ++ " bytes (mutable), " ++
    toString (sizeLoop b.Files).immutableSize ++ " bytes (immutable), last modified " ++
    timeString b.LastModified ++ "\n"

/-- The connected SFTP client: the answer of `ReadDir("/")` and, for every
path, the steps of `Walk(path)`. -/
structure Client where
  ReadDir : Except String (List FileInfo)
  Walk : String → List WalkStep

/-- The loop `for _, d := range directories { ... }` of `main`, from the empty
slice `backups`. -/
def collect (client : Client) (directories : List FileInfo) : List Backup :=
  directories.foldl
    (fun backups d =>
      let name := strings.TrimPrefix d.Name "/"
      let backup := newBackup name
      backups ++ [walkLoop backup (client.Walk name)])
    []

/-- Go: `func main()`.  `connect` is the result of `Connect(host, user,
password)`; the value is the sequence of strings printed on standard output, or
the error handed to `log.Fatal`. -/
def main (timeString : Time → String) (connect : Except String Client) :
    Except String (List String) :=
  match connect with
  | .error err => .error err
  | .ok client =>
    match client.ReadDir with
    | .error err => .error err
    | .ok directories =>
      .ok ((collect client directories).map (printLine timeString))

/-! ## The reported aggregate -/

/-- The four numbers printed for a backup. -/
structure Aggregate where
  fileCount : Nat
  mutableBytes : Int
  immutableBytes : Int
  lastModified : Time
deriving DecidableEq

/-- The values `len(b.Files)`, `mutableSize`, `immutableSize` and
`b.LastModified` handed to `Printf`. -/
def Backup.aggregate (b : Backup) : Aggregate :=
  { fileCount := b.Files.length
    mutableBytes := (sizeLoop b.Files).mutableSize
    immutableBytes := (sizeLoop b.Files).immutableSize
    lastModified := b.LastModified }

/-- The aggregate reported for a backup whose walk yields `steps`. -/
def aggregate (steps : List WalkStep) : Aggregate :=
  ( walkLoop (newBackup "") steps).aggregate

/-- A step that reports a file: no error, and the node is not a directory. -/
def WalkStep.isFile (w : WalkStep) : Bool :=
  !w.err && !w.stat.IsDir

/-- The files seen by a walk: its error-free steps on nodes that are not
directories, in the order of the walk. -/
def filesSeen (steps : List WalkStep) : List WalkStep :=
  steps.filter WalkStep.isFile

/-- The `File` the loop appends for a step that reports a file. -/
def WalkStep.toFile (w : WalkStep) : File :=
  { Path := w.path, Size := w.stat.Size }

/-- The sum, in the integers, of the sizes of the files seen by a walk. -/
def sizeSum (steps : List WalkStep) : Int :=
  ((filesSeen steps).map (fun w => w.stat.Size)).sum

/-- The sum, in the integers, of the sizes of the mutable files of a list. -/
def mutableSum (files : List File) : Int :=
  ((files.filter (fun f => !f.IsImmutable)).map File.Size).sum

/-- The sum, in the integers, of the sizes of the immutable files of a list. -/
def immutableSum (files : List File) : Int :=
  ((files.filter (fun f => f.IsImmutable)).map File.Size).sum

/-- The aggregate of two groups of files combined as the specification words
it: the file counts are added, the byte totals are added as `int64` values, and
the later of the two modification times is taken. -/
def Aggregate.combine (a b : Aggregate) : Aggregate :=
  { fileCount := a.fileCount + b.fileCount
    mutableBytes := int64 (a.mutableBytes + b.mutableBytes)
    immutableBytes := int64 (a.immutableBytes + b.immutableBytes)
    lastModified := max a.lastModified b.lastModified }

/-- A file step: an error-free step on a node that is not a directory, with the
given path, size attribute and modification-time attribute. -/
def fileStep (path : String) (size mtime : Nat) : WalkStep :=
  { err := false, path := path, stat := { name := path, size := size, mtime := mtime, dir := false } }

/-- A directory step: an error-free step on a directory. -/
def dirStep (path : String) (mtime : Nat) : WalkStep :=
  { err := false, path := path, stat := { name := path, size := 4096, mtime := mtime, dir := true } }

/-- A step of the walk that reports an error. -/
def errStep (path : String) : WalkStep :=
  { err := true, path := path, stat := { name := path, size := 7, mtime := 9, dir := false } }

/-- A walk whose two files have `2^62` bytes each. -/
def hugeWalk : List WalkStep :=
  [fileStep "daily/refs/main" (2 ^ 62) 5, fileStep "daily/HEAD" (2 ^ 62) 6]

/-- A small walk: a directory, two files and a step that failed. -/
def smallWalk : List WalkStep :=
  [dirStep "daily" 50, fileStep "daily/objects/ab/cd" 100 20, errStep "daily/lock",
    fileStep "daily/refs/main" 10 30]

/-- The backup `main` builds for the top-level entry `d`: the walk of the
trimmed name, folded from a new backup of that name. -/
def backupOf (client : Client) (d : FileInfo) : Backup :=
  walkLoop (newBackup (strings.TrimPrefix d.Name "/")) (client.Walk (strings.TrimPrefix d.Name "/"))

/-- A server whose root lists the directory `daily` and the plain file
`notes.txt`; the walk of `daily` is the small walk, every other walk is empty. -/
def demoClient : Client :=
  { ReadDir := .ok
      [{ name := "daily", size := 4096, mtime := 50, dir := true },
        { name := "notes.txt", size := 12, mtime := 40, dir := false }]
    Walk := fun root => if root = "daily" then smallWalk else [] }

/-- A walk of `daily`: directories, the object file, a directory and the ref
file. -/
def dailyWalk : List WalkStep :=
  [dirStep "daily" 50, dirStep "daily/objects" 45, fileStep "daily/objects/ab/cd" 100 20,
    dirStep "daily/refs" 60, fileStep "daily/refs/main" 10 30]

/-- A server whose root lists only the directory `daily`, walked by
`dailyWalk`. -/
def dailyClient : Client :=
  { ReadDir := .ok [{ name := "daily", size := 4096, mtime := 50, dir := true }]
    Walk := fun _ => dailyWalk }

/-- A rendering of instants for examples: the seconds since year 1. -/
def secondsString (t : Time) : String :=
  toString t.sec

/-- The step `w` reports, without error, a file with the given path, size
attribute and modification-time attribute. -/
def WalkStep.reportsFile (w : WalkStep) (path : String) (size mtime : Nat) : Prop :=
  w.err = false ∧ w.path = path ∧ w.stat.size = size ∧ w.stat.mtime = mtime ∧
    w.stat.dir = false

/-! ## Package `strings`: what the searches decide -/

theorem strings.indexFrom_nonneg_iff (sub : List Char) (s : List Char) (i : Nat) :
    0 ≤ strings.indexFrom sub s i ↔ sub <:+: s := by
  induction s generalizing i with
  | nil =>
    by_cases h : sub = []
    · simp [strings.indexFrom, h]
    · simp [strings.indexFrom, h]
  | cons c t ih =>
    rw [strings.indexFrom, List.infix_cons_iff]
    by_cases h : (c :: t).take sub.length = sub
    · rw [if_pos h]
      constructor
      · intro _
        exact Or.inl (List.prefix_iff_eq_take.mpr h.symm)
      · intro _
        exact Int.ofNat_nonneg i
    · rw [if_neg h, ih]
      constructor
      · intro hi
        exact Or.inr hi
      · rintro (hp | hi)
        · exact absurd (List.prefix_iff_eq_take.mp hp).symm h
        · exact hi

theorem strings.Contains_iff (s substr : String) :
    strings.Contains s substr = true ↔ ∃ a b : String, s = a ++ substr ++ b := by
  unfold strings.Contains strings.Index
  rw [decide_eq_true_iff, ge_iff_le, strings.indexFrom_nonneg_iff]
  constructor
  · rintro ⟨a, b, h⟩
    refine ⟨String.mk a, String.mk b, ?_⟩
    apply String.ext
    simp [String.data_append, h]
  · rintro ⟨a, b, h⟩
    refine ⟨a.data, b.data, ?_⟩
    rw [h]
    simp [String.data_append]

theorem strings.HasSuffix_iff (s suffix : String) :
    strings.HasSuffix s suffix = true ↔ ∃ a : String, s = a ++ suffix := by
  unfold strings.HasSuffix
  rw [Bool.and_eq_true, decide_eq_true_iff, beq_iff_eq]
  constructor
  · rintro ⟨_, h⟩
    refine ⟨String.mk (s.data.take (s.data.length - suffix.data.length)), ?_⟩
    apply String.ext
    rw [String.data_append]
    conv_lhs => rw [← List.take_append_drop (s.data.length - suffix.data.length) s.data]
    rw [h]
  · rintro ⟨a, h⟩
    rw [h]
    simp [String.data_append]

theorem strings.HasPrefix_iff (s pre : String) :
    strings.HasPrefix s pre = true ↔ ∃ r : String, s = pre ++ r := by
  unfold strings.HasPrefix
  rw [Bool.and_eq_true, decide_eq_true_iff, beq_iff_eq]
  constructor
  · rintro ⟨_, h⟩
    refine ⟨String.mk (s.data.drop pre.data.length), ?_⟩
    apply String.ext
    rw [String.data_append]
    conv_lhs => rw [← List.take_append_drop pre.data.length s.data]
    rw [h]
  · rintro ⟨r, h⟩
    rw [h]
    simp [String.data_append]

/-! ## Classification -/

/-- C1: a file is immutable exactly when its path contains `/objects/` or ends
with `.pack` or with `.index`, and mutable otherwise; `a/objects/xx/deadbeef`
and `pack-123.pack` are immutable and `refs/heads/main` is mutable. -/
theorem IsImmutable_iff (p : String) (size : Int) :
    (File.IsImmutable { Path := p, Size := size } = true ↔
      ((∃ a b : String, p = a ++ "/objects/" ++ b) ∨
        (∃ a : String, p = a ++ ".pack") ∨ (∃ a : String, p = a ++ ".index"))) ∧
    (File.IsImmutable { Path := p, Size := size } = false ↔
      ¬ ((∃ a b : String, p = a ++ "/objects/" ++ b) ∨
        (∃ a : String, p = a ++ ".pack") ∨ (∃ a : String, p = a ++ ".index"))) ∧
    File.IsImmutable { Path := "a/objects/xx/deadbeef", Size := size } = true ∧
    File.IsImmutable { Path := "pack-123.pack", Size := size } = true ∧
    File.IsImmutable { Path := "refs/heads/main", Size := size } = false := by
  have key : File.IsImmutable { Path := p, Size := size } = true ↔
      ((∃ a b : String, p = a ++ "/objects/" ++ b) ∨
        (∃ a : String, p = a ++ ".pack") ∨ (∃ a : String, p = a ++ ".index")) := by
    rw [← strings.Contains_iff, ← strings.HasSuffix_iff, ← strings.HasSuffix_iff]
    unfold File.IsImmutable
    cases strings.Contains p "/objects/" <;> cases strings.HasSuffix p ".pack" <;>
      cases strings.HasSuffix p ".index" <;> simp
  refine ⟨key, ?_, ?_, ?_, ?_⟩
  · rw [← key]
    cases File.IsImmutable { Path := p, Size := size } <;> simp
  · exact (by decide : File.IsImmutable { Path := "a/objects/xx/deadbeef", Size := 0 } = true)
  · exact (by decide : File.IsImmutable { Path := "pack-123.pack", Size := 0 } = true)
  · exact (by decide : File.IsImmutable { Path := "refs/heads/main", Size := 0 } = false)

/-! ## Arithmetic of `int64` -/

theorem int64_range (x : Int) : -2 ^ 63 ≤ int64 x ∧ int64 x < 2 ^ 63 := by
  unfold int64
  omega

theorem int64_eq_self (x : Int) (h1 : -2 ^ 63 ≤ x) (h2 : x < 2 ^ 63) : int64 x = x := by
  unfold int64
  omega

theorem int64_add_left (a b : Int) : int64 (int64 a + b) = int64 (a + b) := by
  unfold int64
  omega

theorem int64_add_right (a b : Int) : int64 (a + int64 b) = int64 (a + b) := by
  unfold int64
  omega

theorem int64_idem (a : Int) : int64 (int64 a) = int64 a := by
  unfold int64
  omega

/-! ## Order of instants -/

theorem Time.After_iff (a b : Time) :
    a.After b = true ↔ (b.sec < a.sec ∨ (a.sec = b.sec ∧ b.nsec < a.nsec)) := by
  simp [Time.After]

theorem Time.After_false_iff (a b : Time) :
    a.After b = false ↔ (a.sec < b.sec ∨ (a.sec = b.sec ∧ a.nsec ≤ b.nsec)) := by
  rw [← Bool.not_eq_true, Time.After_iff]
  omega

theorem Time.eq_of_not_After (a b : Time) (h1 : a.After b = false) (h2 : b.After a = false) :
    a = b := by
  obtain ⟨s, n⟩ := a
  obtain ⟨s', n'⟩ := b
  rw [Time.After_false_iff] at h1 h2
  simp only at h1 h2
  have h : s = s' ∧ n = n' := by omega
  rw [h.1, h.2]

theorem max_comm_time (a b : Time) : max a b = max b a := by
  unfold max
  split_ifs with h1 h2 h2
  · rw [Time.After_iff] at h1 h2
    omega
  · rfl
  · rfl
  · rw [Bool.not_eq_true] at h1 h2
    exact Time.eq_of_not_After b a h2 h1

theorem max_assoc_time (a b c : Time) : max (max a b) c = max a (max b c) := by
  unfold max
  split_ifs <;>
    first
    | rfl
    | (exfalso
       simp only [Bool.not_eq_true, Time.After_false_iff, Time.After_iff] at *
       omega)

theorem max_eq_left_time (a b : Time) (h : b.After a = false) : max a b = a := by
  unfold max
  split_ifs with h1
  · rfl
  · rw [Bool.not_eq_true] at h1
    exact Time.eq_of_not_After b a h h1

theorem not_After_max_left (a b : Time) : a.After (max a b) = false := by
  unfold max
  split_ifs with h1
  · rw [Time.After_false_iff]
    omega
  · rw [Bool.not_eq_true] at h1
    exact h1

theorem not_After_max_right (a b : Time) : b.After (max a b) = false := by
  unfold max
  split_ifs with h1
  · rw [Time.After_iff] at h1
    rw [Time.After_false_iff]
    omega
  · rw [Time.After_false_iff]
    omega

theorem not_After_trans (a b c : Time) (h1 : a.After b = false) (h2 : b.After c = false) :
    a.After c = false := by
  rw [Time.After_false_iff] at *
  omega

theorem zero_not_After_Unix (n : Nat) : Time.zero.After (Time.Unix n) = false := by
  rw [Time.After_false_iff]
  simp only [Time.zero, Time.Unix, unixToInternal]
  omega

/-! ## The walk loop in closed form -/

theorem walkBody_of_not_isFile (b : Backup) (w : WalkStep) (h : w.isFile = false) :
    walkBody b w = b := by
  unfold walkBody
  unfold WalkStep.isFile at h
  cases he : w.err <;> cases hd : w.stat.IsDir <;> simp_all

theorem walkBody_of_isFile (b : Backup) (w : WalkStep) (h : w.isFile = true) :
    walkBody b w =
      { Name := b.Name
        Files := b.Files ++ [w.toFile]
        TotalSize := int64 (b.TotalSize + w.stat.Size)
        LastModified := max b.LastModified w.stat.ModTime } := by
  unfold walkBody
  unfold WalkStep.isFile at h
  cases he : w.err <;> cases hd : w.stat.IsDir <;> simp_all [WalkStep.toFile]

theorem walkLoop_nil (b : Backup) : walkLoop b [] = b := rfl

theorem walkLoop_cons (b : Backup) (w : WalkStep) (steps : List WalkStep) :
    walkLoop b (w :: steps) = walkLoop (walkBody b w) steps := rfl

theorem walkLoop_append (b : Backup) (xs ys : List WalkStep) :
    walkLoop b (xs ++ ys) = walkLoop (walkLoop b xs) ys := by
  unfold walkLoop
  rw [List.foldl_append]

theorem walkLoop_filesSeen (b : Backup) (steps : List WalkStep) :
    walkLoop b steps = walkLoop b (filesSeen steps) := by
  induction steps generalizing b with
  | nil => rfl
  | cons w steps ih =>
    unfold filesSeen
    cases h : w.isFile
    · rw [List.filter_cons_of_neg (by simp [h]), walkLoop_cons,
        walkBody_of_not_isFile b w h, ih]
      rfl
    · rw [List.filter_cons_of_pos h, walkLoop_cons, walkLoop_cons, ih]
      rfl

theorem walkLoop_Name (b : Backup) (steps : List WalkStep) :
    (walkLoop b steps).Name = b.Name := by
  induction steps generalizing b with
  | nil => rfl
  | cons w steps ih =>
    rw [walkLoop_cons, ih]
    cases h : w.isFile
    · rw [walkBody_of_not_isFile b w h]
    · rw [walkBody_of_isFile b w h]

theorem walkLoop_Files (b : Backup) (steps : List WalkStep) :
    (walkLoop b steps).Files = b.Files ++ (filesSeen steps).map WalkStep.toFile := by
  induction steps generalizing b with
  | nil => simp [walkLoop_nil, filesSeen]
  | cons w steps ih =>
    rw [walkLoop_cons, ih]
    unfold filesSeen
    cases h : w.isFile
    · rw [walkBody_of_not_isFile b w h, List.filter_cons_of_neg (by simp [h])]
    · rw [walkBody_of_isFile b w h, List.filter_cons_of_pos h]
      simp

theorem walkLoop_TotalSize (b : Backup) (steps : List WalkStep)
    (h1 : -2 ^ 63 ≤ b.TotalSize) (h2 : b.TotalSize < 2 ^ 63) :
    (walkLoop b steps).TotalSize = int64 (b.TotalSize + sizeSum steps) := by
  induction steps generalizing b with
  | nil => simp [walkLoop_nil, sizeSum, filesSeen, int64_eq_self _ h1 h2]
  | cons w steps ih =>
    rw [walkLoop_cons]
    unfold sizeSum filesSeen at *
    cases h : w.isFile
    · rw [walkBody_of_not_isFile b w h, List.filter_cons_of_neg (by simp [h])]
      exact ih b h1 h2
    · have hb := walkBody_of_isFile b w h
      have r1 : -2 ^ 63 ≤ (walkBody b w).TotalSize := by
        rw [hb]
        exact (int64_range _).1
      have r2 : (walkBody b w).TotalSize < 2 ^ 63 := by
        rw [hb]
        exact (int64_range _).2
      rw [List.filter_cons_of_pos h, ih _ r1 r2, hb, List.map_cons, List.sum_cons]
      show int64 (int64 (b.TotalSize + w.stat.Size) + _) = _
      rw [int64_add_left, add_assoc]

theorem walkLoop_LastModified (b : Backup) (steps : List WalkStep) :
    (walkLoop b steps).LastModified =
      ((filesSeen steps).map (fun w => w.stat.ModTime)).foldl max b.LastModified := by
  induction steps generalizing b with
  | nil => rfl
  | cons w steps ih =>
    rw [walkLoop_cons, ih]
    unfold filesSeen
    cases h : w.isFile
    · rw [walkBody_of_not_isFile b w h, List.filter_cons_of_neg (by simp [h])]
    · rw [walkBody_of_isFile b w h, List.filter_cons_of_pos h]
      rfl

/-! ## The report loop in closed form -/

theorem foldl_sizeBody_mutableSize (files : List File) (acc : Sizes)
    (h1 : -2 ^ 63 ≤ acc.mutableSize) (h2 : acc.mutableSize < 2 ^ 63) :
    (files.foldl sizeBody acc).mutableSize = int64 (acc.mutableSize + mutableSum files) := by
  induction files generalizing acc with
  | nil => simp [mutableSum, int64_eq_self _ h1 h2]
  | cons f files ih =>
    rw [List.foldl_cons]
    unfold mutableSum at *
    cases h : f.IsImmutable
    · have hb : sizeBody acc f = { acc with mutableSize := int64 (acc.mutableSize + f.Size) } := by
        simp [sizeBody, h]
      rw [ih _ (by rw [hb]; exact (int64_range _).1) (by rw [hb]; exact (int64_range _).2), hb,
        List.filter_cons_of_pos (by simp [h]), List.map_cons, List.sum_cons]
      show int64 (int64 (acc.mutableSize + f.Size) + _) = _
      rw [int64_add_left, add_assoc]
    · have hb : sizeBody acc f = { acc with immutableSize := int64 (acc.immutableSize + f.Size) } := by
        simp [sizeBody, h]
      rw [ih _ (by rw [hb]; exact h1) (by rw [hb]; exact h2), hb,
        List.filter_cons_of_neg (by simp [h])]

theorem foldl_sizeBody_immutableSize (files : List File) (acc : Sizes)
    (h1 : -2 ^ 63 ≤ acc.immutableSize) (h2 : acc.immutableSize < 2 ^ 63) :
    (files.foldl sizeBody acc).immutableSize =
      int64 (acc.immutableSize + immutableSum files) := by
  induction files generalizing acc with
  | nil => simp [immutableSum, int64_eq_self _ h1 h2]
  | cons f files ih =>
    rw [List.foldl_cons]
    unfold immutableSum at *
    cases h : f.IsImmutable
    · have hb : sizeBody acc f = { acc with mutableSize := int64 (acc.mutableSize + f.Size) } := by
        simp [sizeBody, h]
      rw [ih _ (by rw [hb]; exact h1) (by rw [hb]; exact h2), hb,
        List.filter_cons_of_neg (by simp [h])]
    · have hb : sizeBody acc f = { acc with immutableSize := int64 (acc.immutableSize + f.Size) } := by
        simp [sizeBody, h]
      rw [ih _ (by rw [hb]; exact (int64_range _).1) (by rw [hb]; exact (int64_range _).2), hb,
        List.filter_cons_of_pos (by simp [h]), List.map_cons, List.sum_cons]
      show int64 (int64 (acc.immutableSize + f.Size) + _) = _
      rw [int64_add_left, add_assoc]

theorem sizeLoop_mutableSize (files : List File) :
    (sizeLoop files).mutableSize = int64 (mutableSum files) := by
  unfold sizeLoop
  rw [foldl_sizeBody_mutableSize files _ (by norm_num) (by norm_num)]
  simp

theorem sizeLoop_immutableSize (files : List File) :
    (sizeLoop files).immutableSize = int64 (immutableSum files) := by
  unfold sizeLoop
  rw [foldl_sizeBody_immutableSize files _ (by norm_num) (by norm_num)]
  simp

theorem mutableSum_add_immutableSum (files : List File) :
    mutableSum files + immutableSum files = (files.map File.Size).sum := by
  induction files with
  | nil => rfl
  | cons f files ih =>
    unfold mutableSum immutableSum at *
    cases h : f.IsImmutable
    · rw [List.filter_cons_of_pos (by simp [h]), List.filter_cons_of_neg (by simp [h])]
      simp only [List.map_cons, List.sum_cons]
      omega
    · rw [List.filter_cons_of_neg (by simp [h]), List.filter_cons_of_pos (by simp [h])]
      simp only [List.map_cons, List.sum_cons]
      omega

theorem mutableSum_nonneg (files : List File) (h : ∀ f ∈ files, 0 ≤ f.Size) :
    0 ≤ mutableSum files := by
  unfold mutableSum
  apply List.sum_nonneg
  intro x hx
  obtain ⟨f, hf, rfl⟩ := List.mem_map.mp hx
  exact h f (List.mem_of_mem_filter hf)

theorem immutableSum_nonneg (files : List File) (h : ∀ f ∈ files, 0 ≤ f.Size) :
    0 ≤ immutableSum files := by
  unfold immutableSum
  apply List.sum_nonneg
  intro x hx
  obtain ⟨f, hf, rfl⟩ := List.mem_map.mp hx
  exact h f (List.mem_of_mem_filter hf)

theorem sum_Files_newBackup (name : String) (steps : List WalkStep) :
    ((walkLoop (newBackup name) steps).Files.map File.Size).sum = sizeSum steps := by
  rw [walkLoop_Files]
  simp [newBackup, sizeSum, WalkStep.toFile, Function.comp_def]

/-! ## The latest modification time in closed form -/

theorem foldl_max_ge_init (ts : List Time) (c : Time) :
    c.After (ts.foldl max c) = false := by
  induction ts generalizing c with
  | nil =>
    rw [List.foldl_nil, Time.After_false_iff]
    omega
  | cons t ts ih =>
    rw [List.foldl_cons]
    exact not_After_trans _ _ _ (not_After_max_left c t) (ih (max c t))

theorem foldl_max_ge_mem (ts : List Time) (c t : Time) (h : t ∈ ts) :
    t.After (ts.foldl max c) = false := by
  induction ts generalizing c with
  | nil => cases h
  | cons u ts ih =>
    rw [List.foldl_cons]
    rcases List.mem_cons.mp h with rfl | h
    · exact not_After_trans _ _ _ (not_After_max_right c t) (foldl_max_ge_init ts (max c t))
    · exact ih (max c u) h

theorem foldl_max_mem (ts : List Time) (c : Time) :
    ts.foldl max c = c ∨ ts.foldl max c ∈ ts := by
  induction ts generalizing c with
  | nil => exact Or.inl rfl
  | cons u ts ih =>
    rw [List.foldl_cons]
    rcases ih (max c u) with h | h
    · rw [h]
      unfold max
      split_ifs
      · exact Or.inl rfl
      · exact Or.inr (List.mem_cons_self u ts)
    · exact Or.inr (List.mem_cons_of_mem u h)

/-! ## Size conservation -/

/-- C2 (amended): the mutable total plus the immutable total, the sum of the
sizes of the files seen and `TotalSize` agree as `int64` values, that is modulo
`2^64`; they are equal as integers when no size is negative and the sizes sum to
less than `2^63`. -/
theorem size_conservation (name : String) (steps : List WalkStep) :
    (int64 ((sizeLoop (walkLoop (newBackup name) steps).Files).mutableSize +
        (sizeLoop (walkLoop (newBackup name) steps).Files).immutableSize) =
        (walkLoop (newBackup name) steps).TotalSize ∧
      (walkLoop (newBackup name) steps).TotalSize = int64 (sizeSum steps)) ∧
    ((∀ w ∈ filesSeen steps, 0 ≤ w.stat.Size) → sizeSum steps < 2 ^ 63 →
      ((sizeLoop (walkLoop (newBackup name) steps).Files).mutableSize +
        (sizeLoop (walkLoop (newBackup name) steps).Files).immutableSize = sizeSum steps ∧
      sizeSum steps = (walkLoop (newBackup name) steps).TotalSize)) := by
  have hT : (walkLoop (newBackup name) steps).TotalSize = int64 (sizeSum steps) := by
    rw [walkLoop_TotalSize _ _ (by norm_num [newBackup]) (by norm_num [newBackup])]
    simp [newBackup]
  have hsum := mutableSum_add_immutableSum (walkLoop (newBackup name) steps).Files
  rw [sum_Files_newBackup] at hsum
  rw [sizeLoop_mutableSize, sizeLoop_immutableSize]
  refine ⟨⟨?_, hT⟩, ?_⟩
  · rw [int64_add_left, int64_add_right, hsum, hT]
  · intro hnonneg hfit
    have hfiles : ∀ f ∈ (walkLoop (newBackup name) steps).Files, 0 ≤ f.Size := by
      intro f hf
      rw [walkLoop_Files] at hf
      simp only [newBackup, List.nil_append, List.mem_map] at hf
      obtain ⟨w, hw, rfl⟩ := hf
      exact hnonneg w hw
    have hm := mutableSum_nonneg _ hfiles
    have hi := immutableSum_nonneg _ hfiles
    rw [hT, int64_eq_self (mutableSum _) (by omega) (by omega),
      int64_eq_self (immutableSum _) (by omega) (by omega),
      int64_eq_self (sizeSum steps) (by omega) (by omega)]
    exact ⟨hsum, rfl⟩

/-- C2, at a concrete walk: a directory, a failed step and two files of 100 and
10 bytes give 10 mutable and 100 immutable bytes, 110 in all. -/
theorem size_conservation_witness :
    (sizeLoop (walkLoop (newBackup "daily") smallWalk).Files).mutableSize +
        (sizeLoop (walkLoop (newBackup "daily") smallWalk).Files).immutableSize = 110 ∧
      sizeSum smallWalk = 110 ∧
      (walkLoop (newBackup "daily") smallWalk).TotalSize = 110 := by
  have h := (size_conservation "daily" smallWalk).2 (by decide) (by decide)
  have hs : sizeSum smallWalk = 110 := by decide
  rw [hs] at h
  exact ⟨h.1, hs, h.2.symm⟩

/-- C2 as stated fails: for two mutable files of `2^62` bytes each the mutable
total is `-2^63` and the immutable total `0`, while the sizes sum to `2^63`. -/
theorem size_conservation_overflow :
    (sizeLoop (walkLoop (newBackup "daily") hugeWalk).Files).mutableSize = -2 ^ 63 ∧
      (sizeLoop (walkLoop (newBackup "daily") hugeWalk).Files).immutableSize = 0 ∧
      sizeSum hugeWalk = 2 ^ 63 ∧
      (sizeLoop (walkLoop (newBackup "daily") hugeWalk).Files).mutableSize +
        (sizeLoop (walkLoop (newBackup "daily") hugeWalk).Files).immutableSize ≠
          sizeSum hugeWalk := by
  decide

/-! ## Latest modification time -/

/-- C3: the reported `LastModified` is the maximum modification time of the
files seen: no file seen is later, and when a file was seen it is the
modification time of one of them; when no file was seen it is the zero time. -/
theorem lastModified_is_max (name : String) (steps : List WalkStep) :
    (filesSeen steps = [] → (walkLoop (newBackup name) steps).LastModified = Time.zero) ∧
    (filesSeen steps ≠ [] →
      ∃ w ∈ filesSeen steps, (walkLoop (newBackup name) steps).LastModified = w.stat.ModTime) ∧
    (∀ w ∈ filesSeen steps,
      w.stat.ModTime.After (walkLoop (newBackup name) steps).LastModified = false) := by
  rw [walkLoop_LastModified]
  have hz : (newBackup name).LastModified = Time.zero := rfl
  rw [hz]
  refine ⟨?_, ?_, ?_⟩
  · intro h
    rw [h]
    rfl
  · intro h
    rcases foldl_max_mem ((filesSeen steps).map (fun w => w.stat.ModTime)) Time.zero with h0 | hm
    · obtain ⟨w, hw⟩ := List.exists_mem_of_ne_nil _ h
      refine ⟨w, hw, ?_⟩
      have h1 := foldl_max_ge_mem ((filesSeen steps).map (fun w => w.stat.ModTime)) Time.zero
        w.stat.ModTime (List.mem_map_of_mem _ hw)
      rw [h0] at h1 ⊢
      exact Time.eq_of_not_After _ _ (zero_not_After_Unix _) h1
    · obtain ⟨w, hw, he⟩ := List.mem_map.mp hm
      exact ⟨w, hw, he.symm⟩
  · intro w hw
    exact foldl_max_ge_mem _ _ _ (List.mem_map_of_mem _ hw)

/-! ## Additivity and order independence of the aggregate -/

theorem aggregate_eq (steps : List WalkStep) :
    aggregate steps =
      { fileCount := (filesSeen steps).length
        mutableBytes := int64 (mutableSum ((filesSeen steps).map WalkStep.toFile))
        immutableBytes := int64 (immutableSum ((filesSeen steps).map WalkStep.toFile))
        lastModified := ((filesSeen steps).map (fun w => w.stat.ModTime)).foldl max Time.zero } := by
  unfold aggregate Backup.aggregate
  rw [sizeLoop_mutableSize, sizeLoop_immutableSize, walkLoop_LastModified, walkLoop_Files]
  simp [newBackup]

theorem mutableSum_append (xs ys : List File) :
    mutableSum (xs ++ ys) = mutableSum xs + mutableSum ys := by
  unfold mutableSum
  rw [List.filter_append, List.map_append, List.sum_append]

theorem immutableSum_append (xs ys : List File) :
    immutableSum (xs ++ ys) = immutableSum xs + immutableSum ys := by
  unfold immutableSum
  rw [List.filter_append, List.map_append, List.sum_append]

theorem mutableSum_perm (xs ys : List File) (h : xs.Perm ys) :
    mutableSum xs = mutableSum ys := by
  unfold mutableSum
  exact ((h.filter _).map _).sum_eq

theorem immutableSum_perm (xs ys : List File) (h : xs.Perm ys) :
    immutableSum xs = immutableSum ys := by
  unfold immutableSum
  exact ((h.filter _).map _).sum_eq

theorem foldl_max_perm (xs ys : List Time) (c : Time) (h : xs.Perm ys) :
    xs.foldl max c = ys.foldl max c := by
  haveI : RightCommutative (max : Time → Time → Time) :=
    ⟨fun b a₁ a₂ => by
      rw [max_assoc_time, max_assoc_time, max_comm_time a₁ a₂]⟩
  exact h.foldl_eq c

theorem foldl_max_init (ts : List Time) (c : Time) (h : Time.zero.After c = false) :
    ts.foldl max c = max c (ts.foldl max Time.zero) := by
  induction ts generalizing c with
  | nil =>
    rw [List.foldl_nil, List.foldl_nil, max_eq_left_time c Time.zero h]
  | cons t ts ih =>
    rw [List.foldl_cons, List.foldl_cons,
      ih (max c t) (not_After_trans _ _ _ h (not_After_max_left c t)),
      ih (max Time.zero t) (not_After_max_left Time.zero t),
      max_assoc_time Time.zero t, ← max_assoc_time c Time.zero, max_eq_left_time c Time.zero h,
      max_assoc_time]

theorem foldl_max_append (xs ys : List Time) :
    (xs ++ ys).foldl max Time.zero =
      max (xs.foldl max Time.zero) (ys.foldl max Time.zero) := by
  rw [List.foldl_append, foldl_max_init ys _ (foldl_max_ge_init xs Time.zero)]

theorem aggregate_append (g1 g2 : List WalkStep) :
    aggregate (g1 ++ g2) = Aggregate.combine (aggregate g1) (aggregate g2) := by
  rw [aggregate_eq, aggregate_eq, aggregate_eq]
  unfold Aggregate.combine filesSeen
  simp only [List.filter_append, List.map_append, List.length_append, mutableSum_append,
    immutableSum_append, foldl_max_append, int64_add_left, int64_add_right]

theorem aggregate_perm (xs ys : List WalkStep) (h : ys.Perm xs) :
    aggregate ys = aggregate xs := by
  rw [aggregate_eq, aggregate_eq]
  have hf : (filesSeen ys).Perm (filesSeen xs) := h.filter _
  rw [hf.length_eq, mutableSum_perm _ _ (hf.map _), immutableSum_perm _ _ (hf.map _),
    foldl_max_perm _ _ _ (hf.map _)]

theorem sizeSum_eq (steps : List WalkStep) :
    sizeSum steps = mutableSum ((filesSeen steps).map WalkStep.toFile) +
      immutableSum ((filesSeen steps).map WalkStep.toFile) := by
  rw [mutableSum_add_immutableSum]
  simp [sizeSum, WalkStep.toFile, Function.comp_def]

theorem toFile_Size_nonneg (steps : List WalkStep)
    (h : ∀ w ∈ filesSeen steps, 0 ≤ w.stat.Size) :
    ∀ f ∈ (filesSeen steps).map WalkStep.toFile, 0 ≤ f.Size := by
  intro f hf
  obtain ⟨w, hw, rfl⟩ := List.mem_map.mp hf
  exact h w hw

/-- C4 (amended): for every split of a sequence of walk steps into two groups,
in any order, adding the two file counts, adding the two mutable and the two
immutable totals in `int64` arithmetic and taking `max` of the two
`lastModified` values gives the aggregate of the whole sequence, and the
aggregate does not depend on the order of the steps; when no size is negative
and the sizes sum to less than `2^63` the byte totals of the whole are the plain
sums of those of the groups. -/
theorem aggregate_additive (xs g1 g2 : List WalkStep) (h : (g1 ++ g2).Perm xs) :
    aggregate xs = Aggregate.combine (aggregate g1) (aggregate g2) ∧
    (∀ ys : List WalkStep, ys.Perm xs → aggregate ys = aggregate xs) ∧
    ((∀ w ∈ filesSeen xs, 0 ≤ w.stat.Size) → sizeSum xs < 2 ^ 63 →
      ((aggregate xs).fileCount = (aggregate g1).fileCount + (aggregate g2).fileCount ∧
        (aggregate xs).mutableBytes = (aggregate g1).mutableBytes + (aggregate g2).mutableBytes ∧
        (aggregate xs).immutableBytes =
          (aggregate g1).immutableBytes + (aggregate g2).immutableBytes ∧
        (aggregate xs).lastModified =
          max (aggregate g1).lastModified (aggregate g2).lastModified)) := by
  have hcomb : aggregate xs = Aggregate.combine (aggregate g1) (aggregate g2) := by
    rw [← aggregate_perm xs (g1 ++ g2) h, aggregate_append]
  refine ⟨hcomb, fun ys hys => aggregate_perm xs ys hys, ?_⟩
  intro hnonneg hfit
  have hf : (filesSeen (g1 ++ g2)).Perm (filesSeen xs) := h.filter _
  have hsplit : filesSeen (g1 ++ g2) = filesSeen g1 ++ filesSeen g2 := List.filter_append _ _
  have hn1 : ∀ w ∈ filesSeen g1, 0 ≤ w.stat.Size := fun w hw =>
    hnonneg w (hf.subset (by rw [hsplit]; exact List.mem_append_left _ hw))
  have hn2 : ∀ w ∈ filesSeen g2, 0 ≤ w.stat.Size := fun w hw =>
    hnonneg w (hf.subset (by rw [hsplit]; exact List.mem_append_right _ hw))
  have hm1 := mutableSum_nonneg _ (toFile_Size_nonneg g1 hn1)
  have hm2 := mutableSum_nonneg _ (toFile_Size_nonneg g2 hn2)
  have hi1 := immutableSum_nonneg _ (toFile_Size_nonneg g1 hn1)
  have hi2 := immutableSum_nonneg _ (toFile_Size_nonneg g2 hn2)
  have hm : mutableSum ((filesSeen xs).map WalkStep.toFile) =
      mutableSum ((filesSeen g1).map WalkStep.toFile) +
        mutableSum ((filesSeen g2).map WalkStep.toFile) := by
    rw [← mutableSum_perm _ _ (hf.map _), hsplit, List.map_append, mutableSum_append]
  have hi : immutableSum ((filesSeen xs).map WalkStep.toFile) =
      immutableSum ((filesSeen g1).map WalkStep.toFile) +
        immutableSum ((filesSeen g2).map WalkStep.toFile) := by
    rw [← immutableSum_perm _ _ (hf.map _), hsplit, List.map_append, immutableSum_append]
  have hs := sizeSum_eq xs
  rw [hcomb]
  refine ⟨rfl, ?_, ?_, rfl⟩
  · show int64 ((aggregate g1).mutableBytes + (aggregate g2).mutableBytes) = _
    rw [aggregate_eq g1, aggregate_eq g2]
    show int64 (int64 (mutableSum _) + int64 (mutableSum _)) =
      int64 (mutableSum _) + int64 (mutableSum _)
    rw [int64_eq_self (mutableSum ((filesSeen g1).map WalkStep.toFile)) (by omega) (by omega),
      int64_eq_self (mutableSum ((filesSeen g2).map WalkStep.toFile)) (by omega) (by omega)]
    exact int64_eq_self _ (by omega) (by omega)
  · show int64 ((aggregate g1).immutableBytes + (aggregate g2).immutableBytes) = _
    rw [aggregate_eq g1, aggregate_eq g2]
    show int64 (int64 (immutableSum _) + int64 (immutableSum _)) =
      int64 (immutableSum _) + int64 (immutableSum _)
    rw [int64_eq_self (immutableSum ((filesSeen g1).map WalkStep.toFile)) (by omega) (by omega),
      int64_eq_self (immutableSum ((filesSeen g2).map WalkStep.toFile)) (by omega) (by omega)]
    exact int64_eq_self _ (by omega) (by omega)

/-- C4, at a concrete split: the four steps of the small walk, shared between
two groups in another order, combine to the aggregate of the walk, which is 2
files, 10 mutable and 100 immutable bytes and the later file time. -/
theorem aggregate_additive_witness :
    aggregate smallWalk =
        Aggregate.combine
          (aggregate [fileStep "daily/refs/main" 10 30, dirStep "daily" 50])
          (aggregate [errStep "daily/lock", fileStep "daily/objects/ab/cd" 100 20]) ∧
      aggregate smallWalk =
        { fileCount := 2, mutableBytes := 10, immutableBytes := 100,
          lastModified := Time.Unix 30 } :=
  ⟨(aggregate_additive smallWalk
      [fileStep "daily/refs/main" 10 30, dirStep "daily" 50]
      [errStep "daily/lock", fileStep "daily/objects/ab/cd" 100 20] (by decide)).1,
    by decide⟩

/-- C4 as stated fails: two groups of one mutable file of `2^62` bytes each have
mutable totals whose sum is `2^63`, while the mutable total of the two files
aggregated at once is `-2^63`. -/
theorem aggregate_sum_overflow :
    ([fileStep "daily/refs/main" (2 ^ 62) 5] ++ [fileStep "daily/HEAD" (2 ^ 62) 6]).Perm hugeWalk ∧
      (aggregate [fileStep "daily/refs/main" (2 ^ 62) 5]).mutableBytes +
          (aggregate [fileStep "daily/HEAD" (2 ^ 62) 6]).mutableBytes = 2 ^ 63 ∧
      (aggregate hugeWalk).mutableBytes = -2 ^ 63 ∧
      (aggregate [fileStep "daily/refs/main" (2 ^ 62) 5]).mutableBytes +
          (aggregate [fileStep "daily/HEAD" (2 ^ 62) 6]).mutableBytes ≠
        (aggregate hugeWalk).mutableBytes := by
  decide

/-! ## Steps that are skipped -/

theorem walkLoop_filter (b : Backup) (steps : List WalkStep) (p : WalkStep → Bool)
    (hp : ∀ w, w.isFile = true → p w = true) :
    walkLoop b (steps.filter p) = walkLoop b steps := by
  rw [walkLoop_filesSeen b (steps.filter p), walkLoop_filesSeen b steps]
  unfold filesSeen
  rw [List.filter_filter]
  congr 1
  apply List.filter_congr
  intro w _
  cases h : w.isFile
  · simp
  · simp [hp w h]

theorem isFile_not_err (w : WalkStep) (h : w.isFile = true) : (!w.err) = true := by
  unfold WalkStep.isFile at h
  cases he : w.err <;> simp_all

theorem isFile_not_IsDir (w : WalkStep) (h : w.isFile = true) : (!w.stat.IsDir) = true := by
  unfold WalkStep.isFile at h
  cases hd : w.stat.IsDir <;> simp_all

/-- C5: a step that reports an error is skipped and the walk goes on: the
backup, and so the reported aggregate, is that of the same steps without the
failed ones, the file count is the number of remaining steps that are not
directories, and the steps after a failed one are still folded in. -/
theorem errors_are_skipped (b : Backup) (steps : List WalkStep) :
    walkLoop b steps = walkLoop b (steps.filter (fun w => !w.err)) ∧
    aggregate steps = aggregate (steps.filter (fun w => !w.err)) ∧
    (aggregate steps).fileCount =
      ((steps.filter (fun w => !w.err)).filter (fun w => !w.stat.IsDir)).length ∧
    (∀ (before after : List WalkStep) (e : WalkStep), e.err = true →
      walkLoop b (before ++ e :: after) = walkLoop (walkLoop b before) after) := by
  refine ⟨(walkLoop_filter b steps _ isFile_not_err).symm, ?_, ?_, ?_⟩
  · unfold aggregate
    rw [walkLoop_filter _ steps _ isFile_not_err]
  · rw [aggregate_eq]
    unfold filesSeen
    rw [List.filter_filter]
    show (List.filter WalkStep.isFile steps).length = _
    congr 1
    apply List.filter_congr
    intro w _
    unfold WalkStep.isFile
    cases w.err <;> cases w.stat.IsDir <;> rfl
  · intro before after e he
    rw [walkLoop_append, walkLoop_cons, walkBody_of_not_isFile _ e (by simp [WalkStep.isFile, he])]

/-- C6: a step whose node is a directory leaves the backup as it was, so none
of the file count, the byte totals, `TotalSize` and `LastModified` changes,
whatever the modification time of the directory; the backup and the aggregate
of a walk are those of the walk without its directory steps. -/
theorem directories_are_skipped (b : Backup) (w : WalkStep) (steps : List WalkStep)
    (hdir : w.stat.IsDir = true) :
    walkBody b w = b ∧
    (walkBody b w).aggregate = b.aggregate ∧
    (walkBody b w).TotalSize = b.TotalSize ∧
    walkLoop b steps = walkLoop b (steps.filter (fun w => !w.stat.IsDir)) ∧
    aggregate steps = aggregate (steps.filter (fun w => !w.stat.IsDir)) ∧
    (∀ x ∈ (walkLoop b steps).Files, x ∈ b.Files ∨
      ∃ v ∈ steps, v.stat.IsDir = false ∧ x = v.toFile) := by
  have hb : walkBody b w = b :=
    walkBody_of_not_isFile b w (by simp [WalkStep.isFile, hdir])
  refine ⟨hb, by rw [hb], by rw [hb], (walkLoop_filter b steps _ isFile_not_IsDir).symm, ?_, ?_⟩
  · unfold aggregate
    rw [walkLoop_filter _ steps _ isFile_not_IsDir]
  · intro x hx
    rw [walkLoop_Files] at hx
    rcases List.mem_append.mp hx with hx | hx
    · exact Or.inl hx
    · obtain ⟨v, hv, rfl⟩ := List.mem_map.mp hx
      unfold filesSeen at hv
      have hv2 := (List.mem_filter.mp hv).2
      have hv3 := isFile_not_IsDir v hv2
      refine Or.inr ⟨v, (List.mem_filter.mp hv).1, ?_, rfl⟩
      cases hd : v.stat.IsDir
      · rfl
      · rw [hd] at hv3
        cases hv3

/-- C6, at a concrete step: after a file modified at time 20, a directory
modified at the later time 50 changes nothing. -/
theorem directories_are_skipped_witness :
    walkBody (walkLoop (newBackup "daily") [fileStep "daily/objects/ab/cd" 100 20])
        (dirStep "daily/objects" 50) =
      walkLoop (newBackup "daily") [fileStep "daily/objects/ab/cd" 100 20] ∧
    (walkLoop (newBackup "daily") [fileStep "daily/objects/ab/cd" 100 20]).LastModified =
      Time.Unix 20 :=
  ⟨(directories_are_skipped
      (walkLoop (newBackup "daily") [fileStep "daily/objects/ab/cd" 100 20])
      (dirStep "daily/objects" 50) [] (by decide)).1, by decide⟩

/-! ## Monotone growth of a backup -/

theorem sizeLoop_append_singleton (files : List File) (f : File) :
    sizeLoop (files ++ [f]) = sizeBody (sizeLoop files) f := by
  unfold sizeLoop
  rw [List.foldl_append, List.foldl_cons, List.foldl_nil]

theorem Time.not_After_self (t : Time) : t.After t = false := by
  rw [Time.After_false_iff]
  omega

/-- C10 (amended): for every backup and every next step, the file count after
the step is at least the count before it and `LastModified` before the step is
not after `LastModified` after it, with no further condition.  When the size of
the step is not negative, `TotalSize` after the step is at least `TotalSize`
before it if the backup was reached during a walk and, when the step reports a
file, `TotalSize` plus the size stays below `2^63`; the mutable total does not
decrease if, when the step reports a mutable file, the mutable total plus the
size stays below `2^63`; and likewise the immutable total for an immutable
file. -/
theorem walk_monotone (b : Backup) (w : WalkStep) :
    b.Files.length ≤ (walkBody b w).Files.length ∧
    b.LastModified.After (walkBody b w).LastModified = false ∧
    (0 ≤ w.stat.Size →
      ((∃ (name : String) (steps : List WalkStep), b = walkLoop (newBackup name) steps) →
        (w.isFile = true → b.TotalSize + w.stat.Size < 2 ^ 63) →
        b.TotalSize ≤ (walkBody b w).TotalSize) ∧
      ((w.isFile = true → w.toFile.IsImmutable = false →
          (sizeLoop b.Files).mutableSize + w.stat.Size < 2 ^ 63) →
        (sizeLoop b.Files).mutableSize ≤ (sizeLoop (walkBody b w).Files).mutableSize) ∧
      ((w.isFile = true → w.toFile.IsImmutable = true →
          (sizeLoop b.Files).immutableSize + w.stat.Size < 2 ^ 63) →
        (sizeLoop b.Files).immutableSize ≤
          (sizeLoop (walkBody b w).Files).immutableSize)) := by
  cases h : w.isFile
  · rw [walkBody_of_not_isFile b w h]
    exact ⟨le_refl _, Time.not_After_self _,
      fun _ => ⟨fun _ _ => le_refl _, fun _ => le_refl _, fun _ => le_refl _⟩⟩
  · have hMr : -2 ^ 63 ≤ (sizeLoop b.Files).mutableSize := by
      rw [sizeLoop_mutableSize]
      exact (int64_range _).1
    have hIr : -2 ^ 63 ≤ (sizeLoop b.Files).immutableSize := by
      rw [sizeLoop_immutableSize]
      exact (int64_range _).1
    rw [walkBody_of_isFile b w h]
    refine ⟨?_, not_After_max_left _ _, fun hsize => ⟨?_, ?_, ?_⟩⟩
    · show b.Files.length ≤ (b.Files ++ [w.toFile]).length
      rw [List.length_append]
      exact Nat.le_add_right _ _
    · intro hreach hT
      have hTr : -2 ^ 63 ≤ b.TotalSize := by
        obtain ⟨name, steps, rfl⟩ := hreach
        rw [walkLoop_TotalSize _ _ (by norm_num [newBackup]) (by norm_num [newBackup])]
        exact (int64_range _).1
      show b.TotalSize ≤ int64 (b.TotalSize + w.stat.Size)
      rw [int64_eq_self _ (by omega) (hT rfl)]
      omega
    · intro hM
      show _ ≤ (sizeLoop (b.Files ++ [w.toFile])).mutableSize
      rw [sizeLoop_append_singleton]
      unfold sizeBody
      cases hc : w.toFile.IsImmutable
      · show _ ≤ int64 ((sizeLoop b.Files).mutableSize + w.stat.Size)
        rw [int64_eq_self _ (by omega) (hM rfl hc)]
        omega
      · exact le_refl _
    · intro hI
      show _ ≤ (sizeLoop (b.Files ++ [w.toFile])).immutableSize
      rw [sizeLoop_append_singleton]
      unfold sizeBody
      cases hc : w.toFile.IsImmutable
      · exact le_refl _
      · show _ ≤ int64 ((sizeLoop b.Files).immutableSize + w.stat.Size)
        rw [int64_eq_self _ (by omega) (hI rfl hc)]
        omega

/-- C10, at concrete steps: after the first file of the small walk, of 100
bytes, the second file, of 10 bytes, raises `TotalSize` from 100 to 110; and
after a file of `2^62` bytes a second one of `2^62` bytes, which overflows
`TotalSize`, still raises the file count from 1 to 2 and leaves `LastModified`
no earlier. -/
theorem walk_monotone_witness :
    ((walkLoop (newBackup "daily") [fileStep "daily/objects/ab/cd" 100 20]).TotalSize ≤
        (walkBody (walkLoop (newBackup "daily") [fileStep "daily/objects/ab/cd" 100 20])
          (fileStep "daily/refs/main" 10 30)).TotalSize ∧
      (walkLoop (newBackup "daily") [fileStep "daily/objects/ab/cd" 100 20]).TotalSize = 100 ∧
      (walkBody (walkLoop (newBackup "daily") [fileStep "daily/objects/ab/cd" 100 20])
          (fileStep "daily/refs/main" 10 30)).TotalSize = 110) ∧
    ((walkLoop (newBackup "daily") [fileStep "daily/refs/main" (2 ^ 62) 5]).Files.length ≤
        (walkBody (walkLoop (newBackup "daily") [fileStep "daily/refs/main" (2 ^ 62) 5])
          (fileStep "daily/HEAD" (2 ^ 62) 6)).Files.length ∧
      (walkLoop (newBackup "daily") [fileStep "daily/refs/main" (2 ^ 62) 5]).LastModified.After
        (walkBody (walkLoop (newBackup "daily") [fileStep "daily/refs/main" (2 ^ 62) 5])
          (fileStep "daily/HEAD" (2 ^ 62) 6)).LastModified = false ∧
      (walkLoop (newBackup "daily") [fileStep "daily/refs/main" (2 ^ 62) 5]).Files.length = 1 ∧
      (walkBody (walkLoop (newBackup "daily") [fileStep "daily/refs/main" (2 ^ 62) 5])
          (fileStep "daily/HEAD" (2 ^ 62) 6)).Files.length = 2) :=
  ⟨⟨((walk_monotone
        (walkLoop (newBackup "daily") [fileStep "daily/objects/ab/cd" 100 20])
        (fileStep "daily/refs/main" 10 30)).2.2 (by decide)).1
      ⟨"daily", _, rfl⟩ (fun _ => by decide),
    by decide, by decide⟩,
   ⟨(walk_monotone
        (walkLoop (newBackup "daily") [fileStep "daily/refs/main" (2 ^ 62) 5])
        (fileStep "daily/HEAD" (2 ^ 62) 6)).1,
    (walk_monotone
        (walkLoop (newBackup "daily") [fileStep "daily/refs/main" (2 ^ 62) 5])
        (fileStep "daily/HEAD" (2 ^ 62) 6)).2.1,
    by decide, by decide⟩⟩

/-- C10 as stated fails: after a file of `2^62` bytes, a step with another file
of `2^62` bytes, a size that is not negative, takes `TotalSize` from `2^62` down
to `-2^63` and the mutable total likewise. -/
theorem walk_monotone_overflow :
    0 ≤ (fileStep "daily/HEAD" (2 ^ 62) 6).stat.Size ∧
      (walkLoop (newBackup "daily") [fileStep "daily/refs/main" (2 ^ 62) 5]).TotalSize = 2 ^ 62 ∧
      (walkBody (walkLoop (newBackup "daily") [fileStep "daily/refs/main" (2 ^ 62) 5])
          (fileStep "daily/HEAD" (2 ^ 62) 6)).TotalSize = -2 ^ 63 ∧
      ¬ ((walkLoop (newBackup "daily") [fileStep "daily/refs/main" (2 ^ 62) 5]).TotalSize ≤
        (walkBody (walkLoop (newBackup "daily") [fileStep "daily/refs/main" (2 ^ 62) 5])
          (fileStep "daily/HEAD" (2 ^ 62) 6)).TotalSize) ∧
      ¬ ((sizeLoop (walkLoop (newBackup "daily")
            [fileStep "daily/refs/main" (2 ^ 62) 5]).Files).mutableSize ≤
        (sizeLoop (walkBody (walkLoop (newBackup "daily") [fileStep "daily/refs/main" (2 ^ 62) 5])
          (fileStep "daily/HEAD" (2 ^ 62) 6)).Files).mutableSize) := by
  decide

/-! ## One backup per top-level entry -/

theorem foldl_collect (client : Client) (directories : List FileInfo) (acc : List Backup) :
    directories.foldl
        (fun backups d =>
          let name := strings.TrimPrefix d.Name "/"
          let backup := newBackup name
          backups ++ [walkLoop backup (client.Walk name)])
        acc =
      acc ++ directories.map (backupOf client) := by
  induction directories generalizing acc with
  | nil => simp
  | cons d ds ih =>
    rw [List.foldl_cons, ih, List.map_cons, List.append_assoc]
    rfl

theorem collect_eq_map (client : Client) (directories : List FileInfo) :
    collect client directories = directories.map (backupOf client) := by
  unfold collect
  rw [foldl_collect, List.nil_append]

theorem main_ok (timeString : Time → String) (client : Client) (directories : List FileInfo)
    (h : client.ReadDir = .ok directories) :
    main timeString (.ok client) =
      .ok (directories.map (fun d => printLine timeString (backupOf client d))) := by
  unfold main
  simp only [h]
  rw [collect_eq_map, List.map_map]
  rfl

/-- C7: when the root listing succeeds, the run collects one backup and prints
one line per listed entry, whatever the entry is, in the order of the listing:
the i-th backup and the i-th line are those of the i-th entry. -/
theorem one_line_per_entry (timeString : Time → String) (client : Client)
    (directories : List FileInfo) (h : client.ReadDir = .ok directories) :
    ∃ lines : List String,
      main timeString (.ok client) = .ok lines ∧
      lines = directories.map (fun d => printLine timeString (backupOf client d)) ∧
      collect client directories = directories.map (backupOf client) ∧
      lines.length = directories.length ∧
      (collect client directories).length = directories.length ∧
      ∀ i : Nat,
        (collect client directories)[i]? = (directories[i]?).map (backupOf client) ∧
        lines[i]? = (directories[i]?).map (fun d => printLine timeString (backupOf client d)) := by
  refine ⟨_, main_ok timeString client directories h, rfl, collect_eq_map _ _, ?_, ?_, ?_⟩
  · rw [List.length_map]
  · rw [collect_eq_map, List.length_map]
  · intro i
    rw [collect_eq_map, List.getElem?_map, List.getElem?_map]
    exact ⟨rfl, rfl⟩

/-- C7, at a concrete server: the directory `daily` and the plain file
`notes.txt` listed in the root give two lines, in that order. -/
theorem one_line_per_entry_witness :
    ∃ lines : List String,
      main secondsString (.ok demoClient) = .ok lines ∧
      lines =
        ["daily (2 files), 10 bytes (mutable), 100 bytes (immutable), last modified 62135596830\n",
          "notes.txt (0 files), 0 bytes (mutable), 0 bytes (immutable), last modified 0\n"] := by
  obtain ⟨lines, hmain, hlines, _⟩ := one_line_per_entry secondsString demoClient _ rfl
  refine ⟨lines, hmain, ?_⟩
  rw [hlines]
  decide

/-! ## The name of a backup -/

theorem strings.TrimPrefix_append (pre r : String) :
    strings.TrimPrefix (pre ++ r) pre = r := by
  unfold strings.TrimPrefix
  rw [if_pos ((strings.HasPrefix_iff _ _).mpr ⟨r, rfl⟩)]
  apply String.ext
  simp [String.data_append]

theorem strings.TrimPrefix_of_not_HasPrefix (s pre : String)
    (h : ¬ ∃ r : String, s = pre ++ r) : strings.TrimPrefix s pre = s := by
  unfold strings.TrimPrefix
  rw [if_neg (fun hp => h ((strings.HasPrefix_iff _ _).mp hp))]

theorem printLine_Name (timeString : Time → String) (b : Backup) :
    ∃ rest : String, printLine timeString b = b.Name ++ rest := by
  refine ⟨" (" ++ toString b.Files.length ++ " files), " ++
    toString (sizeLoop b.Files).mutableSize ++ " bytes (mutable), " ++
    toString (sizeLoop b.Files).immutableSize ++ " bytes (immutable), last modified " ++
    timeString b.LastModified ++ "\n", ?_⟩
  unfold printLine
  simp only [String.append_assoc]

/-- C8: the backup made for a top-level entry named `n` carries, as its name
and as the root of its walk, `n` without its leading `/` when `n` starts with
`/`, and `n` itself otherwise; the printed line starts with that name. -/
theorem backup_name_is_trimmed (timeString : Time → String) (client : Client) (d : FileInfo)
    (listedBefore listedAfter : List FileInfo) :
    ∃ n : String,
      ((d.Name = "/" ++ n) ∨ ((¬ ∃ r : String, d.Name = "/" ++ r) ∧ n = d.Name)) ∧
      strings.TrimPrefix d.Name "/" = n ∧
      (collect client (listedBefore ++ d :: listedAfter))[listedBefore.length]? =
        some (walkLoop (newBackup n) (client.Walk n)) ∧
      (walkLoop (newBackup n) (client.Walk n)).Name = n ∧
      ∃ rest : String,
        printLine timeString (walkLoop (newBackup n) (client.Walk n)) = n ++ rest := by
  refine ⟨strings.TrimPrefix d.Name "/", ?_, rfl, ?_, ?_, ?_⟩
  · by_cases h : ∃ r : String, d.Name = "/" ++ r
    · obtain ⟨r, hr⟩ := h
      left
      rw [hr, strings.TrimPrefix_append]
    · right
      exact ⟨h, strings.TrimPrefix_of_not_HasPrefix _ _ h⟩
  · rw [collect_eq_map, List.getElem?_map, List.getElem?_append_right (le_refl _)]
    simp [backupOf]
  · rw [walkLoop_Name]
    rfl
  · obtain ⟨rest, h⟩ := printLine_Name timeString
      (walkLoop (newBackup (strings.TrimPrefix d.Name "/"))
        (client.Walk (strings.TrimPrefix d.Name "/")))
    rw [walkLoop_Name] at h
    exact ⟨rest, h⟩

/-- C8, at concrete names: `/daily` and `daily` both give the name `daily`, and
of the two separators of `//daily` the first is removed. -/
theorem backup_name_is_trimmed_witness :
    (∃ n : String, strings.TrimPrefix "/daily" "/" = n ∧
      (collect demoClient [{ name := "/daily", size := 4096, mtime := 50, dir := true }])[0]? =
        some (walkLoop (newBackup n) (demoClient.Walk n))) ∧
    strings.TrimPrefix "/daily" "/" = "daily" ∧
    strings.TrimPrefix "daily" "/" = "daily" ∧
    strings.TrimPrefix "//daily" "/" = "/daily" := by
  refine ⟨?_, by decide, by decide, by decide⟩
  obtain ⟨n, _, hn, hc, _⟩ := backup_name_is_trimmed secondsString demoClient
    { name := "/daily", size := 4096, mtime := 50, dir := true } [] []
  exact ⟨n, hn, hc⟩

/-! ## End to end -/

theorem max_Unix_of_lt (c : Time) (m n : Nat) (h : m < n) (hc : c.After (Time.Unix m) = false) :
    max (max c (Time.Unix m)) (Time.Unix n) = Time.Unix n ∧
      max (max c (Time.Unix n)) (Time.Unix m) = Time.Unix n := by
  have hmn : (Time.Unix m).After (Time.Unix n) = false := by
    rw [Time.After_false_iff]
    simp only [Time.Unix]
    omega
  have hcn : c.After (Time.Unix n) = false := not_After_trans _ _ _ hc hmn
  have e1 : max c (Time.Unix m) = Time.Unix m := by
    rw [max_comm_time]
    exact max_eq_left_time _ _ hc
  have e2 : max c (Time.Unix n) = Time.Unix n := by
    rw [max_comm_time]
    exact max_eq_left_time _ _ hcn
  have e3 : max (Time.Unix m) (Time.Unix n) = Time.Unix n := by
    rw [max_comm_time]
    exact max_eq_left_time _ _ hmn
  rw [e1, e2, e3]
  exact ⟨rfl, max_eq_left_time _ _ hmn⟩

theorem printLine_daily (timeString : Time → String) (files : List File) (total : Int)
    (t : Time)
    (h : files =
          [{ Path := "daily/objects/ab/cd", Size := 100 }, { Path := "daily/refs/main", Size := 10 }] ∨
        files =
          [{ Path := "daily/refs/main", Size := 10 }, { Path := "daily/objects/ab/cd", Size := 100 }]) :
    printLine timeString { Name := "daily", Files := files, TotalSize := total, LastModified := t } =
      "daily (2 files), 10 bytes (mutable), 100 bytes (immutable), last modified " ++
        timeString t ++ "\n" := by
  unfold printLine
  rcases h with h | h <;>
  · subst h
    congr 2
    dsimp only
    decide

theorem filter_isFile_dirs (ds : List WalkStep) (h : ∀ w ∈ ds, w.stat.IsDir = true) :
    ds.filter WalkStep.isFile = [] := by
  rw [List.filter_eq_nil_iff]
  intro w hw
  simp [WalkStep.isFile, h w hw]

theorem reportsFile_isFile (w : WalkStep) (path : String) (size mtime : Nat)
    (h : w.reportsFile path size mtime) :
    w.isFile = true ∧ w.toFile = { Path := path, Size := int64 size } ∧
      w.stat.ModTime = Time.Unix mtime := by
  obtain ⟨he, hp, hs, hm, hd⟩ := h
  refine ⟨?_, ?_, ?_⟩
  · simp [WalkStep.isFile, FileInfo.IsDir, he, hd]
  · simp [WalkStep.toFile, FileInfo.Size, hp, hs]
  · simp [FileInfo.ModTime, hm]

/-- C9: for the single top-level entry `daily` whose walk yields the file
`daily/objects/ab/cd` (100 bytes, modified at `T1`) and the file
`daily/refs/main` (10 bytes, modified at `T2 > T1`), in either order and with
any directory steps before, between and after them, the run prints exactly the
one line `daily (2 files), 10 bytes (mutable), 100 bytes (immutable), last
modified T2`. -/
theorem end_to_end (timeString : Time → String) (T1 T2 : Nat) (hT : T1 < T2)
    (client : Client) (entry : FileInfo) (hentry : entry.Name = "daily")
    (hlist : client.ReadDir = .ok [entry])
    (objectFile refFile first second : WalkStep)
    (hobject : objectFile.reportsFile "daily/objects/ab/cd" 100 T1)
    (href : refFile.reportsFile "daily/refs/main" 10 T2)
    (horder : (first = objectFile ∧ second = refFile) ∨ (first = refFile ∧ second = objectFile))
    (dirs0 dirs1 dirs2 : List WalkStep)
    (hdirs : ∀ w ∈ dirs0 ++ dirs1 ++ dirs2, w.stat.IsDir = true)
    (hwalk : client.Walk "daily" = dirs0 ++ first :: dirs1 ++ second :: dirs2) :
    main timeString (.ok client) =
      .ok ["daily (2 files), 10 bytes (mutable), 100 bytes (immutable), last modified " ++
        timeString (Time.Unix T2) ++ "\n"] := by
  rw [main_ok timeString client [entry] hlist, List.map_cons, List.map_nil]
  have hname : strings.TrimPrefix entry.Name "/" = "daily" := by
    rw [hentry]
    decide
  obtain ⟨ho1, ho2, ho3⟩ := reportsFile_isFile _ _ _ _ hobject
  obtain ⟨hr1, hr2, hr3⟩ := reportsFile_isFile _ _ _ _ href
  have hf1 : first.isFile = true := by
    rcases horder with ⟨h, _⟩ | ⟨h, _⟩ <;> rw [h] <;> assumption
  have hf2 : second.isFile = true := by
    rcases horder with ⟨_, h⟩ | ⟨_, h⟩ <;> rw [h] <;> assumption
  have hd0 : dirs0.filter WalkStep.isFile = [] :=
    filter_isFile_dirs _ (fun w hw => hdirs w (by simp [hw]))
  have hd1 : dirs1.filter WalkStep.isFile = [] :=
    filter_isFile_dirs _ (fun w hw => hdirs w (by simp [hw]))
  have hd2 : dirs2.filter WalkStep.isFile = [] :=
    filter_isFile_dirs _ (fun w hw => hdirs w (by simp [hw]))
  have hseen : filesSeen (dirs0 ++ first :: dirs1 ++ second :: dirs2) = [first, second] := by
    unfold filesSeen
    rw [List.filter_append, List.filter_append, hd0, List.filter_cons_of_pos hf1, hd1,
      List.filter_cons_of_pos hf2, hd2]
    rfl
  have hsize100 : int64 ((100 : Nat) : Int) = 100 := by decide
  have hsize10 : int64 ((10 : Nat) : Int) = 10 := by decide
  have hback : backupOf client entry =
      { Name := "daily"
        Files := [first.toFile, second.toFile]
        TotalSize := int64 (int64 (0 + first.stat.Size) + second.stat.Size)
        LastModified := max (max Time.zero first.stat.ModTime) second.stat.ModTime } := by
    unfold backupOf
    rw [hname, hwalk, walkLoop_filesSeen, hseen, walkLoop_cons, walkLoop_cons, walkLoop_nil,
      walkBody_of_isFile _ first hf1, walkBody_of_isFile _ second hf2]
    rfl
  have hmax := max_Unix_of_lt Time.zero T1 T2 hT (zero_not_After_Unix T1)
  rw [hback]
  rcases horder with ⟨h1, h2⟩ | ⟨h1, h2⟩
  · rw [h1, h2, ho2, hr2, ho3, hr3, hsize100, hsize10, hmax.1,
      printLine_daily timeString _ _ _ (Or.inl rfl)]
  · rw [h1, h2, ho2, hr2, ho3, hr3, hsize100, hsize10, hmax.2,
      printLine_daily timeString _ _ _ (Or.inr rfl)]

/-- C9, at a concrete server: with `T1 = 20` and `T2 = 30` seconds after the
Unix epoch and three directories around the two files, the run prints the one
line, whose time is that of `daily/refs/main`. -/
theorem end_to_end_witness :
    main secondsString (.ok dailyClient) =
      .ok ["daily (2 files), 10 bytes (mutable), 100 bytes (immutable), last modified " ++
        secondsString (Time.Unix 30) ++ "\n"] :=
  end_to_end secondsString 20 30 (by decide) dailyClient
    { name := "daily", size := 4096, mtime := 50, dir := true } rfl rfl
    (fileStep "daily/objects/ab/cd" 100 20) (fileStep "daily/refs/main" 10 30)
    (fileStep "daily/objects/ab/cd" 100 20) (fileStep "daily/refs/main" 10 30)
    ⟨rfl, rfl, rfl, rfl, rfl⟩ ⟨rfl, rfl, rfl, rfl, rfl⟩ (Or.inl ⟨rfl, rfl⟩)
    [dirStep "daily" 50, dirStep "daily/objects" 45] [dirStep "daily/refs" 60] []
    (by decide) rfl

end SftpBackupSync
